import Mathlib

set_option maxRecDepth 100000

/-!
Verification of the serial_transfer framing protocol.

Shallow embedding of the two source files (`src/lib.rs`, `src/crc/mod.rs`).
Bytes are modelled as `Nat` values; every 8-bit wrapping operation of the
source is made explicit with `% 256`.  Fuel-based recursion is used for the
source's `while` loop (`decode_data_cobs`); a fuel-independence theorem shows
the chosen fuel bound is sufficient, i.e. the loop terminates.
-/

/-- `START_BYTE` constant of the source (0x7E). -/
def START_BYTE : Nat := 0x7E

/-- `STOP_BYTE` constant of the source (0x81). -/
def STOP_BYTE : Nat := 0x81

/-- `MAX_PACKET_SIZE` constant of the source (0xFE). -/
def MAX_PACKET_SIZE : Nat := 0xFE

/-- The reverse scan `for i in (0..data.len()).rev()` of `encode_data_cobs`
looking for the last occurrence of `START_BYTE`.  `lastSentinelAux data k`
scans indices `k-1, k-2, ..., 0` and returns the first hit. -/
def lastSentinelAux (data : List Nat) : Nat → Option Nat
  | 0 => none
  | k + 1 => if data.getD k 0 = START_BYTE then some k else lastSentinelAux data k

/-- `last_byte_index` of `SerialTransfer::encode_data_cobs`. -/
def lastSentinel (data : List Nat) : Option Nat :=
  lastSentinelAux data data.length

/-- The stuffing loop `for i in (0..data.len() as u8).rev()` of
`encode_data_cobs`.  `encodeLoop k data ref` processes indices
`k-1, ..., 0`; at each index holding `START_BYTE` it stores the wrapping
distance `reference_index.overflowing_sub(i)` and moves the reference. -/
def encodeLoop : Nat → List Nat → Nat → List Nat
  | 0, data, _ => data
  | k + 1, data, ref =>
    if data.getD k 0 = START_BYTE then
      encodeLoop k (data.set k ((ref + 256 - k) % 256)) k
    else
      encodeLoop k data ref

/-- `SerialTransfer::encode_data_cobs`.  The loop bound `data.len() as u8`
and the cast `index as u8` are modelled by `% 256`. -/
def encode_data_cobs (data : List Nat) : List Nat :=
  match lastSentinel data with
  | some index => encodeLoop (data.length % 256) data (index % 256)
  | none => data

/-- The `while reference_index < data.len() as u8` loop of
`decode_data_cobs`, with explicit fuel.  Each iteration reads the offset
stored at the current index, restores `START_BYTE` there, and advances by the
offset with `u8` wrapping; a wrapped addition breaks out of the loop. -/
def decodeLoop : Nat → List Nat → Nat → List Nat
  | 0, data, _ => data
  | f + 1, data, ref =>
    if ref < data.length % 256 then
      let offset := data.getD ref 0
      let data1 := data.set ref START_BYTE
      if 256 ≤ ref + offset then data1
      else decodeLoop f data1 (ref + offset)
    else data

/-- `SerialTransfer::decode_data_cobs`.  The fuel `2 * data.length + 1` is
sufficient: see the fuel-independence theorem below.  The `u8` argument
`overhead_byte` is normalised with `% 256`. -/
def decode_data_cobs (data : List Nat) (overhead_byte : Nat) : List Nat :=
  decodeLoop (2 * data.length + 1) data (overhead_byte % 256)

/-- `buffer.iter().position(|&x| x == START_BYTE)` in `SerialTransfer::send`. -/
def firstSentinelAux : List Nat → Nat → Option Nat
  | [], _ => none
  | b :: rest, i => if b = START_BYTE then some i else firstSentinelAux rest (i + 1)

/-- The `overflow_byte` computation of `SerialTransfer::send`: index of the
first `START_BYTE` occurrence (cast to `u8`), or `0xFF` if none. -/
def overflow_byte_of (data : List Nat) : Nat :=
  match firstSentinelAux data 0 with
  | some index => index % 256
  | none => 0xFF

/-- One shift round of `CRC::new`: if the top bit is set, shift left and xor
with the polynomial, else only shift left, all truncated to 8 bits. -/
def crc_shift (polynomial crc : Nat) : Nat :=
  if crc &&& 0x80 ≠ 0 then ((crc <<< 1) % 256) ^^^ polynomial
  else (crc <<< 1) % 256

/-- The inner `for _ in 0..8` loop of `CRC::new`, iterated `n` times. -/
def crc_rounds (polynomial : Nat) : Nat → Nat → Nat
  | crc, 0 => crc
  | crc, n + 1 => crc_rounds polynomial (crc_shift polynomial crc) n

/-- `CRC::new(polynomial)`: a 256-entry table initialised to zeros, then
filled by the loop `for i in 0..255` — note the source iterates `i` over
`0..255`, which in Rust excludes 255. -/
def crc_table (polynomial : Nat) : List Nat :=
  (List.range 255).foldl (fun t i => t.set i (crc_rounds polynomial i 8))
    (List.replicate 256 0)

/-- The `for i in 0..length` loop of `CRC::calculate`; `data.get(i)`
returning `None` breaks out of the loop. -/
def crcLoop (table data : List Nat) : Nat → Nat → Nat → Nat
  | _, crc, 0 => crc
  | i, crc, k + 1 =>
    match data[i]? with
    | none => crc
    | some byte => crcLoop table data (i + 1) (table.getD (crc ^^^ byte) 0) k

/-- `CRC::calculate(data, length)`.  A missing length defaults to
`data.len() as u8` (modelled by `% 256`). -/
def crc_calculate (table data : List Nat) (length : Option Nat) : Nat :=
  let len := match length with
    | some l => l
    | none => data.length % 256
  crcLoop table data 0 0 len

/-- The checksum table owned by every `SerialTransfer` session:
`CRC::new(0x9B)`. -/
def crcTable9B : List Nat := crc_table 0x9B

/-- `TransferStatus` enumeration of the source. -/
inductive TransferStatus where
  | Continue
  | NewData
  | NoData
  | CrcError
  | PayloadError
  | StopByteError
deriving DecidableEq

/-- `TransferState` enumeration of the source. -/
inductive TransferState where
  | FindStartByte
  | FindIdByte
  | FindOverheadByte
  | FindPayloadLength
  | FindPayload
  | FindCrc
  | FindStopByte
deriving DecidableEq

/-- The mutable fields of `SerialTransfer` touched by the parser (the
serial-port handle and checksum table are external / constant). -/
structure Session where
  status : TransferStatus
  transfer_state : TransferState
  id_byte : Nat
  overhead_byte : Nat
  payload_length : Nat
  payload : List Nat
deriving DecidableEq

/-- The session state produced by `SerialTransfer::new`. -/
def initSession : Session :=
  { status := .Continue
    transfer_state := .FindStartByte
    id_byte := 0
    overhead_byte := 0
    payload_length := 0
    payload := [] }

/-- One iteration of the `while` loop of `SerialTransfer::available`:
process a single received byte `b`.  Returns the updated session and the
emitted record, if any.  A record of the target type is modelled by its raw
byte list of length `COUNT` (the `[u8; COUNT]` array the source transmutes);
the `try_into` conversion succeeds exactly when the payload length is
`COUNT`. -/
def step (COUNT : Nat) (s : Session) (b : Nat) : Session × Option (List Nat) :=
  match s.transfer_state with
  | .FindStartByte =>
    if b = START_BYTE then ({ s with transfer_state := .FindIdByte }, none)
    else (s, none)
  | .FindIdByte =>
    ({ s with id_byte := b, transfer_state := .FindOverheadByte }, none)
  | .FindOverheadByte =>
    ({ s with overhead_byte := b, transfer_state := .FindPayloadLength }, none)
  | .FindPayloadLength =>
    if 0 < b ∧ b < MAX_PACKET_SIZE then
      ({ s with payload_length := b, transfer_state := .FindPayload, payload := [] }, none)
    else
      ({ s with transfer_state := .FindStartByte, status := .PayloadError }, none)
  | .FindPayload =>
    if s.payload.length < s.payload_length then
      let payload1 := s.payload ++ [b]
      if payload1.length = s.payload_length then
        ({ s with payload := payload1, transfer_state := .FindCrc }, none)
      else
        ({ s with payload := payload1, transfer_state := .FindPayload }, none)
    else (s, none)
  | .FindCrc =>
    let calculated_crc := crc_calculate crcTable9B s.payload (some s.payload_length)
    let decoded := decode_data_cobs s.payload s.overhead_byte
    if calculated_crc = b then
      ({ s with payload := decoded, transfer_state := .FindStopByte }, none)
    else
      ({ s with payload := decoded, transfer_state := .FindStartByte, status := .CrcError }, none)
  | .FindStopByte =>
    if b = STOP_BYTE then
      if s.payload.length = COUNT then
        ({ s with transfer_state := .FindStartByte, status := .NewData }, some s.payload)
      else
        ({ s with transfer_state := .FindStartByte, status := .PayloadError }, none)
    else
      ({ s with transfer_state := .FindStartByte, status := .StopByteError }, none)

/-- The `while self.serialport.bytes_to_read()? > 0` loop of
`SerialTransfer::available`, driven by the list of bytes the link delivers:
feed each byte to `step`, returning as soon as a record is produced, or
with `none` when the bytes run out. -/
def availableLoop (COUNT : Nat) : List Nat → Session → Session × Option (List Nat)
  | [], s => (s, none)
  | b :: rest, s =>
    match step COUNT s b with
    | (s1, some r) => (s1, some r)
    | (s1, none) => availableLoop COUNT rest s1

/-- The byte sequence `SerialTransfer::send` writes to the link for a record
whose raw (transmuted) bytes are `buffer`: start marker, identifier 0,
overhead byte, stuffed length (as `u8`), stuffed payload, checksum over the
stuffed payload, stop marker. -/
def send_packet (buffer : List Nat) : List Nat :=
  let overflow_byte := overflow_byte_of buffer
  let stuffed := encode_data_cobs buffer
  let crc := crc_calculate crcTable9B stuffed none
  START_BYTE :: 0 :: overflow_byte :: (stuffed.length % 256) :: (stuffed ++ [crc, STOP_BYTE])

/-- Spec-side formulation of the overhead byte: the index of the first
occurrence of the sentinel value in the payload, or 255 if none
(§4.4: "the index of the first sentinel occurrence in the raw bytes"). -/
def spec_overhead (buffer : List Nat) : Nat :=
  match buffer.findIdx? (fun x => x == START_BYTE) with
  | some i => i
  | none => 255

/-- Spec-side formulation of the checksum (§4.1): fold the table across the
bytes, `acc = table[acc XOR byte]`, starting from 0. -/
def crc_fold (table data : List Nat) : Nat :=
  data.foldl (fun acc byte => table.getD (acc ^^^ byte) 0) 0

/-- Ascending list of the indices in `[j, j+m)` at which `x` holds the
sentinel value (proof infrastructure for the stuffing round trip). -/
def occsUp (x : List Nat) : Nat → Nat → List Nat
  | 0, _ => []
  | m + 1, j =>
    if x.getD j 0 = START_BYTE then j :: occsUp x m (j + 1)
    else occsUp x m (j + 1)

/-- The decoder's chain-walk precondition: starting at `a`, each listed
position stores the distance to the next one, the final position stores 0,
all positions are in bounds, and the final position is close enough to the
end of the buffer that the walk exits after restoring it. -/
def WalkSpec (L : Nat) (y : List Nat) : Nat → List Nat → Prop
  | a, [] => y.getD a 0 = 0 ∧ L ≤ a + 126 ∧ a < L
  | a, b :: rest => y.getD a 0 = b - a ∧ a < b ∧ a < L ∧ WalkSpec L y b rest

/-- Write the sentinel value back at every listed position. -/
def restoreAll (y : List Nat) : List Nat → List Nat
  | [] => y
  | a :: rest => restoreAll (y.set a START_BYTE) rest

/-- The parser events that terminate the current frame (successfully or
with an error): a rejected length byte, a checksum mismatch, or the
stop-byte phase. -/
def terminating (s : Session) (b : Nat) : Prop :=
  (s.transfer_state = .FindPayloadLength ∧ ¬(0 < b ∧ b < MAX_PACKET_SIZE)) ∨
  (s.transfer_state = .FindCrc ∧
    crc_calculate crcTable9B s.payload (some s.payload_length) ≠ b) ∨
  s.transfer_state = .FindStopByte

instance (s : Session) (b : Nat) : Decidable (terminating s b) := by
  unfold terminating
  infer_instance

/-- Fuel bound under which `decodeLoop` has already reached its final
value: the walk can take at most two steps per remaining in-bounds index. -/
def decodeFuelBound (data : List Nat) (ref : Nat) : Nat :=
  if ref < data.length % 256 then
    2 * (data.length % 256 - ref) + (if data.getD ref 0 = 0 then 1 else 0)
  else 0

theorem getD_set_self (l : List Nat) (n v : Nat) (h : n < l.length) :
    (l.set n v).getD n 0 = v := by
  simp [List.getD_eq_getElem, h, List.length_set, List.getElem_set]

theorem getD_set_ne (l : List Nat) (n m v : Nat) (h : n ≠ m) :
    (l.set n v).getD m 0 = l.getD m 0 := by
  simp [List.getD, List.getElem?_set_ne h]

theorem crcLoop_succ (table data : List Nat) (i crc k : Nat) :
    crcLoop table data i crc (k + 1) =
      match data[i]? with
      | none => crc
      | some byte => crcLoop table data (i + 1) (table.getD (crc ^^^ byte) 0) k := rfl

theorem crcLoop_eq_foldl (table data : List Nat) :
    ∀ (k i crc : Nat), crcLoop table data i crc k =
      ((data.drop i).take k).foldl (fun acc byte => table.getD (acc ^^^ byte) 0) crc := by
  intro k
  induction k with
  | zero => intro i crc; rfl
  | succ k ih =>
    intro i crc
    rw [crcLoop_succ]
    by_cases h : i < data.length
    · have hd : data.drop i = data[i] :: data.drop (i + 1) := List.drop_eq_getElem_cons h
      have hg : data[i]? = some data[i] := List.getElem?_eq_getElem h
      rw [hg, hd]
      simp only [List.take_succ_cons, List.foldl_cons]
      exact ih (i + 1) _
    · have h1 : data[i]? = none := List.getElem?_eq_none (by omega)
      have h2 : data.drop i = [] := List.drop_eq_nil_of_le (by omega)
      rw [h1, h2]
      rfl

/-- C9: `CRC::calculate` is total for every buffer and explicit length
argument; when the length exceeds the buffer size the fold silently stops at
the buffer's end, so the result is the table fold (accumulator starting at 0,
updated as `acc = table[acc XOR byte]`) over the first
`min(length, buffer size)` bytes. -/
theorem crc_calculate_quiet_truncation (table data : List Nat) (len : Nat) :
    crc_calculate table data (some len) =
      crc_fold table (data.take (min len data.length)) := by
  have h1 : data.take (min len data.length) = data.take len := by
    rcases Nat.le_total len data.length with h | h
    · rw [Nat.min_eq_left h]
    · rw [Nat.min_eq_right h, List.take_of_length_le h,
        List.take_of_length_le (Nat.le_refl _)]
  rw [h1]
  unfold crc_calculate crc_fold
  simpa using crcLoop_eq_foldl table data len 0 0

theorem foldl_set_length (f : Nat → Nat) :
    ∀ (l : List Nat) (init : List Nat),
      (l.foldl (fun t i => t.set i (f i)) init).length = init.length := by
  intro l
  induction l with
  | nil => intro init; rfl
  | cons a l ih => intro init; simp [List.foldl_cons, ih, List.length_set]

theorem foldl_set_range_getD (f : Nat → Nat) (init : List Nat) :
    ∀ (n j : Nat), n ≤ init.length →
      ((List.range n).foldl (fun t i => t.set i (f i)) init).getD j 0 =
        if j < n then f j else init.getD j 0 := by
  intro n
  induction n with
  | zero => intro j h; simp
  | succ n ih =>
    intro j h
    rw [show n + 1 = Nat.succ n from rfl, List.range_succ, List.foldl_append]
    simp only [List.foldl_cons, List.foldl_nil]
    by_cases hj : j = n
    · subst hj
      rw [getD_set_self _ _ _ (by rw [foldl_set_length]; omega)]
      simp
    · rw [getD_set_ne _ _ _ _ (fun hh => hj hh.symm)]
      rw [ih j (by omega)]
      by_cases hlt : j < n
      · rw [if_pos hlt, if_pos (by omega)]
      · rw [if_neg hlt, if_neg (by omega)]

/-- C2 (amended): for every byte value `i` in `0..=254` the table entry of
`CRC::new(polynomial)` is the 8-round shift/xor value computed from `i`; the
loop `for i in 0..255` never touches index 255, whose entry stays at its
initialiser 0. -/
theorem crc_table_entries (polynomial i : Nat) (h : i < 255) :
    (crc_table polynomial).getD i 0 = crc_rounds polynomial i 8 ∧
      (crc_table polynomial).getD 255 0 = 0 := by
  unfold crc_table
  constructor
  · rw [foldl_set_range_getD _ _ 255 i (by simp)]
    rw [if_pos h]
  · rw [foldl_set_range_getD _ _ 255 255 (by simp)]
    rw [if_neg (by omega)]
    simp [List.getD]

/-- C2 counterexample: entry 255 of the table built for the session's
polynomial 0x9B is 0, not the 8-round value 0x7B computed from 255 — the
constructor loop `for i in 0..255` skips the last candidate byte value. -/
theorem crc_table_entry255_counterexample :
    (crc_table 0x9B).getD 255 0 ≠ crc_rounds 0x9B 255 8 := by decide

/-- Witness for the amended C2 theorem at a concrete entry. -/
theorem crc_table_entries_witness :
    (crc_table 0x9B).getD 7 0 = crc_rounds 0x9B 7 8 ∧
      (crc_table 0x9B).getD 255 0 = 0 :=
  crc_table_entries 0x9B 7 (by decide)

theorem decodeLoop_oob (g : Nat) (z : List Nat) (r : Nat) (h : z.length % 256 ≤ r) :
    decodeLoop g z r = z := by
  cases g with
  | zero => rfl
  | succ g => simp [decodeLoop, Nat.not_lt.mpr h]

theorem decodeLoop_succ (f : Nat) (data : List Nat) (ref : Nat)
    (h : ref < data.length % 256) :
    decodeLoop (f + 1) data ref =
      if 256 ≤ ref + data.getD ref 0 then data.set ref START_BYTE
      else decodeLoop f (data.set ref START_BYTE) (ref + data.getD ref 0) := by
  simp [decodeLoop, h]

theorem decodeFuelBound_pos (data : List Nat) (ref : Nat)
    (h : ref < data.length % 256) : 2 ≤ decodeFuelBound data ref := by
  unfold decodeFuelBound
  rw [if_pos h]
  split_ifs <;> omega

theorem decodeFuelBound_step (data : List Nat) (ref : Nat)
    (hlt : ref < data.length % 256) (_hov : ¬ 256 ≤ ref + data.getD ref 0) :
    decodeFuelBound (data.set ref START_BYTE) (ref + data.getD ref 0) + 1 ≤
      decodeFuelBound data ref := by
  have hlen : (data.set ref START_BYTE).length = data.length := List.length_set data ref _
  have href : ref < data.length := Nat.lt_of_lt_of_le hlt (Nat.mod_le _ _)
  have hset : (data.set ref START_BYTE).getD ref 0 = START_BYTE :=
    getD_set_self data ref _ href
  by_cases h0 : data.getD ref 0 = 0
  · have e1 : ref + data.getD ref 0 = ref := by omega
    rw [e1]
    unfold decodeFuelBound
    rw [hlen, if_pos hlt, if_pos hlt, hset, h0]
    have hS : START_BYTE ≠ 0 := by unfold START_BYTE; omega
    rw [if_neg hS, if_pos rfl]
  · have hoff : 1 ≤ data.getD ref 0 := Nat.one_le_iff_ne_zero.mpr h0
    unfold decodeFuelBound
    rw [hlen, if_pos hlt, if_neg h0]
    by_cases h2 : ref + data.getD ref 0 < data.length % 256
    · rw [if_pos h2]
      split_ifs <;> omega
    · rw [if_neg h2]
      omega

theorem decodeLoop_fuel_indep :
    ∀ (f g : Nat) (data : List Nat) (ref : Nat),
      decodeFuelBound data ref ≤ f → decodeFuelBound data ref ≤ g →
      decodeLoop f data ref = decodeLoop g data ref := by
  intro f
  induction f with
  | zero =>
    intro g data ref hf hg
    have hr : data.length % 256 ≤ ref := by
      by_contra hlt
      have := decodeFuelBound_pos data ref (by omega)
      omega
    rw [decodeLoop_oob _ _ _ hr, decodeLoop_oob _ _ _ hr]
  | succ f ih =>
    intro g data ref hf hg
    by_cases hlt : ref < data.length % 256
    · have hb := decodeFuelBound_pos data ref hlt
      obtain ⟨g1, rfl⟩ : ∃ g1, g = g1 + 1 := ⟨g - 1, by omega⟩
      rw [decodeLoop_succ _ _ _ hlt, decodeLoop_succ _ _ _ hlt]
      by_cases hov : 256 ≤ ref + data.getD ref 0
      · rw [if_pos hov, if_pos hov]
      · rw [if_neg hov, if_neg hov]
        have hstep := decodeFuelBound_step data ref hlt hov
        exact ih g1 _ _ (by omega) (by omega)
    · rw [decodeLoop_oob _ _ _ (by omega), decodeLoop_oob _ _ _ (by omega)]

/-- C10: `decode_data_cobs` terminates for every input byte vector and every
overhead byte value: the chain walk needs at most `2 * data.length + 1`
iterations, and any extra fuel beyond that bound leaves the result
unchanged (a zero offset leaves the nonzero sentinel behind at the revisited
position, and a wrapping addition breaks the loop). -/
theorem decode_data_cobs_terminates (data : List Nat) (overhead_byte extra : Nat) :
    decodeLoop (2 * data.length + 1 + extra) data (overhead_byte % 256) =
      decode_data_cobs data overhead_byte := by
  unfold decode_data_cobs
  have hmod := Nat.mod_le data.length 256
  apply decodeLoop_fuel_indep
  · unfold decodeFuelBound; split_ifs <;> omega
  · unfold decodeFuelBound; split_ifs <;> omega

theorem encodeLoop_length :
    ∀ (k : Nat) (data : List Nat) (ref : Nat),
      (encodeLoop k data ref).length = data.length := by
  intro k
  induction k with
  | zero => intro data ref; rfl
  | succ k ih =>
    intro data ref
    unfold encodeLoop
    split_ifs
    · rw [ih]; exact List.length_set data k _
    · exact ih data ref

theorem encode_data_cobs_length (data : List Nat) :
    (encode_data_cobs data).length = data.length := by
  unfold encode_data_cobs
  cases lastSentinel data
  · rfl
  · exact encodeLoop_length _ _ _

/-- C8 (amended): for every record whose raw size is between 1 and 253
bytes, the frame built by `send` satisfies the wire invariant — the length
byte (packet index 3) is in `[1, 253]` and the number of stuffed-payload
bytes on the wire equals the length byte exactly.  (`send` itself never
validates the size, so records outside `[1, 253]` violate the invariant:
see the counterexample.) -/
theorem send_packet_wire_invariant (buffer : List Nat)
    (h1 : 1 ≤ buffer.length) (h2 : buffer.length ≤ 253) :
    1 ≤ (send_packet buffer).getD 3 0 ∧ (send_packet buffer).getD 3 0 ≤ 253 ∧
      (send_packet buffer).length = (send_packet buffer).getD 3 0 + 6 := by
  have hlen : (encode_data_cobs buffer).length = buffer.length :=
    encode_data_cobs_length buffer
  have hmod : (encode_data_cobs buffer).length % 256 = buffer.length := by
    rw [hlen]; exact Nat.mod_eq_of_lt (by omega)
  unfold send_packet
  simp only [List.getD_cons_succ, List.getD_cons_zero, List.length_cons,
    List.length_append, List.length_cons, List.length_nil, hmod, hlen]
  omega

/-- C8 counterexample: for a record of raw size 254 (a legal `COUNT` for
`send`, which performs no validation) the emitted frame's length byte is
254, outside the claimed range `[1, 253]`. -/
theorem send_packet_wire_invariant_counterexample :
    ¬ ((send_packet (List.replicate 254 0)).getD 3 0 ≤ 253) := by decide

/-- Witness for the amended C8 theorem at a concrete 3-byte record. -/
theorem send_packet_wire_invariant_witness :
    1 ≤ (send_packet [126, 1, 2]).getD 3 0 ∧ (send_packet [126, 1, 2]).getD 3 0 ≤ 253 ∧
      (send_packet [126, 1, 2]).length = (send_packet [126, 1, 2]).getD 3 0 + 6 :=
  send_packet_wire_invariant [126, 1, 2] (by decide) (by decide)

theorem firstSentinelAux_eq_findIdx :
    ∀ (l : List Nat) (i : Nat),
      firstSentinelAux l i = l.findIdx? (fun x => x == START_BYTE) i := by
  intro l
  induction l with
  | nil => intro i; rfl
  | cons b rest ih =>
    intro i
    simp only [firstSentinelAux, List.findIdx?_cons]
    by_cases hb : b = START_BYTE
    · simp [hb]
    · simp only [hb, if_false, beq_iff_eq, if_neg hb]
      exact ih (i + 1)

theorem firstSentinelAux_spec :
    ∀ (l : List Nat) (i j : Nat), firstSentinelAux l i = some j →
      i ≤ j ∧ j - i < l.length ∧ l.getD (j - i) 0 = START_BYTE ∧
        ∀ t, t < j - i → l.getD t 0 ≠ START_BYTE := by
  intro l
  induction l with
  | nil => intro i j h; simp [firstSentinelAux] at h
  | cons b rest ih =>
    intro i j h
    unfold firstSentinelAux at h
    by_cases hb : b = START_BYTE
    · rw [if_pos hb] at h
      injection h with h
      subst h
      refine ⟨Nat.le_refl _, by simp, ?_, ?_⟩
      · simp [Nat.sub_self, hb]
      · intro t ht; omega
    · rw [if_neg hb] at h
      obtain ⟨h1, h2, h3, h4⟩ := ih (i + 1) j h
      refine ⟨by omega, by simp; omega, ?_, ?_⟩
      · have e : j - i = (j - (i + 1)) + 1 := by omega
        rw [e]
        simpa using h3
      · intro t ht
        cases t with
        | zero => simpa using hb
        | succ t =>
          have : t < j - (i + 1) := by omega
          simpa using h4 t this

theorem firstSentinelAux_none_spec :
    ∀ (l : List Nat) (i : Nat), firstSentinelAux l i = none →
      ∀ t, t < l.length → l.getD t 0 ≠ START_BYTE := by
  intro l
  induction l with
  | nil => intro i h t ht; simp at ht
  | cons b rest ih =>
    intro i h t ht
    unfold firstSentinelAux at h
    by_cases hb : b = START_BYTE
    · rw [if_pos hb] at h; cases h
    · rw [if_neg hb] at h
      cases t with
      | zero => simpa using hb
      | succ t =>
        have := ih (i + 1) h t (by simpa using ht)
        simpa using this

/-- C7 (amended): for every record whose raw byte size is at most 255,
`send` writes exactly the sequence: start marker 0x7E, identifier 0, the
overhead byte (index of the first sentinel occurrence in the raw bytes, or
255 if none), the stuffed payload's length, the stuffed payload bytes, the
table checksum with polynomial 0x9B over the stuffed bytes, and the stop
marker 0x81.  (For raw sizes of 256 or more the length byte is truncated
mod 256 by the `as u8` cast: see the counterexample.) -/
theorem send_packet_bytes (buffer : List Nat) (h : buffer.length ≤ 255) :
    send_packet buffer =
      [START_BYTE, 0, spec_overhead buffer, (encode_data_cobs buffer).length] ++
        encode_data_cobs buffer ++
          [crc_fold crcTable9B (encode_data_cobs buffer), STOP_BYTE] := by
  have hov : overflow_byte_of buffer = spec_overhead buffer := by
    unfold overflow_byte_of spec_overhead
    rw [← firstSentinelAux_eq_findIdx]
    cases hfs : firstSentinelAux buffer 0 with
    | none => rfl
    | some j =>
      have hj := (firstSentinelAux_spec buffer 0 j hfs).2.1
      simp only []
      exact Nat.mod_eq_of_lt (by omega)
  have hlen : (encode_data_cobs buffer).length % 256 = (encode_data_cobs buffer).length := by
    rw [encode_data_cobs_length]
    exact Nat.mod_eq_of_lt (by omega)
  have hcrc : crc_calculate crcTable9B (encode_data_cobs buffer) none =
      crc_fold crcTable9B (encode_data_cobs buffer) := by
    unfold crc_calculate
    rw [crcLoop_eq_foldl]
    rw [List.drop_zero, hlen, List.take_of_length_le (Nat.le_refl _)]
    rfl
  show START_BYTE :: 0 :: overflow_byte_of buffer ::
      ((encode_data_cobs buffer).length % 256) ::
        (encode_data_cobs buffer ++
          [crc_calculate crcTable9B (encode_data_cobs buffer) none, STOP_BYTE]) = _
  rw [hov, hlen, hcrc]
  simp

/-- C7 counterexample: for a record of raw size 256 the length byte `send`
writes (packet index 3) is 0, not the stuffed payload's length 256 — the
`as u8` cast truncates, so the emitted frame is not the claimed byte
sequence for every record. -/
theorem send_packet_bytes_counterexample :
    (send_packet (List.replicate 256 0)).getD 3 0 ≠
      (encode_data_cobs (List.replicate 256 0)).length := by decide

/-- Witness for the amended C7 theorem at a concrete 3-byte record
containing the sentinel. -/
theorem send_packet_bytes_witness :
    send_packet [126, 1, 2] =
      [START_BYTE, 0, spec_overhead [126, 1, 2], (encode_data_cobs [126, 1, 2]).length] ++
        encode_data_cobs [126, 1, 2] ++
          [crc_fold crcTable9B (encode_data_cobs [126, 1, 2]), STOP_BYTE] :=
  send_packet_bytes [126, 1, 2] (by decide)

/-- C5: in the `FindPayloadLength` phase, length bytes 0 and 254 are
rejected — the parser returns to `FindStartByte` with status `PayloadError`
and no record — while every length byte in `[1, 253]` is accepted — the
parser moves to `FindPayload`, clears the payload buffer, and stores the
length. -/
theorem find_payload_length_boundary (COUNT : Nat) (s : Session) (b : Nat)
    (h : s.transfer_state = .FindPayloadLength) :
    ((b = 0 ∨ b = 254) →
      (step COUNT s b).1.transfer_state = .FindStartByte ∧
        (step COUNT s b).1.status = .PayloadError ∧ (step COUNT s b).2 = none) ∧
    (1 ≤ b → b ≤ 253 →
      (step COUNT s b).1.transfer_state = .FindPayload ∧
        (step COUNT s b).1.payload = [] ∧
        (step COUNT s b).1.payload_length = b ∧ (step COUNT s b).2 = none) := by
  constructor
  · rintro (rfl | rfl) <;> simp [step, h, MAX_PACKET_SIZE]
  · intro h1 h2
    simp only [step, h]
    rw [if_pos (by unfold MAX_PACKET_SIZE; omega)]
    simp

/-- Witness for the C5 theorem: length byte 254 is rejected with
`PayloadError`, length byte 253 is accepted into `FindPayload`. -/
theorem find_payload_length_boundary_witness :
    (step 1 ⟨.Continue, .FindPayloadLength, 0, 0, 0, []⟩ 254).1.status = .PayloadError ∧
      (step 1 ⟨.Continue, .FindPayloadLength, 0, 0, 0, []⟩ 253).1.transfer_state = .FindPayload :=
  ⟨((find_payload_length_boundary 1 ⟨.Continue, .FindPayloadLength, 0, 0, 0, []⟩ 254 rfl).1
      (Or.inr rfl)).2.1,
    ((find_payload_length_boundary 1 ⟨.Continue, .FindPayloadLength, 0, 0, 0, []⟩ 253 rfl).2
      (by omega) (by omega)).1⟩

theorem step_emission (COUNT : Nat) (s : Session) (b : Nat) :
    ∀ r, (step COUNT s b).2 = some r →
      s.transfer_state = .FindStopByte ∧ b = STOP_BYTE ∧
        s.payload.length = COUNT ∧ r = s.payload := by
  intro r hr
  cases hst : s.transfer_state <;> simp only [step, hst] at hr <;>
    first
      | (split_ifs at hr <;> simp_all)
      | simp_all

theorem availableLoop_emission (COUNT : Nat) :
    ∀ (bytes : List Nat) (s s1 : Session) (r : List Nat),
      availableLoop COUNT bytes s = (s1, some r) → r.length = COUNT := by
  intro bytes
  induction bytes with
  | nil => intro s s1 r h; simp [availableLoop] at h
  | cons b rest ih =>
    intro s s1 r h
    unfold availableLoop at h
    cases hst : step COUNT s b with
    | mk s2 ro =>
      rw [hst] at h
      cases ro with
      | some r2 =>
        simp only [Prod.mk.injEq, Option.some.injEq] at h
        obtain ⟨h3, h4⟩ := (step_emission COUNT s b r2 (by rw [hst])).2.2
        rw [← h.2, h4]
        exact h3
      | none => exact ih s2 s1 r h

/-- C6: a record is emitted only in the `FindStopByte` phase on the stop
marker, and only when the (unstuffed) payload's byte count equals the fixed
record size `COUNT` — the emitted record is exactly that payload; on a size
mismatch the status becomes `PayloadError` and no record is emitted; and
consequently every record a whole `available` invocation returns has byte
count exactly `COUNT` (the step and loop are total functions, so nothing
crashes). -/
theorem record_delivery (COUNT : Nat) (s : Session) (b : Nat) :
    (∀ r, (step COUNT s b).2 = some r →
      s.transfer_state = .FindStopByte ∧ b = STOP_BYTE ∧
        s.payload.length = COUNT ∧ r = s.payload) ∧
    (s.transfer_state = .FindStopByte → b = STOP_BYTE → s.payload.length ≠ COUNT →
      (step COUNT s b).1.status = .PayloadError ∧ (step COUNT s b).2 = none) ∧
    (∀ (bytes : List Nat) (s1 : Session) (r : List Nat),
      availableLoop COUNT bytes s = (s1, some r) → r.length = COUNT) := by
  refine ⟨step_emission COUNT s b, ?_, ?_⟩
  · intro h1 h2 h3
    simp only [step, h1]
    rw [if_pos h2, if_neg h3]
    simp
  · intro bytes s1 r h
    exact availableLoop_emission COUNT bytes s s1 r h

/-- Witness for the C6 theorem: a 2-byte payload is emitted as the record
when `COUNT = 2`, and with `COUNT = 3` the same frame end produces
`PayloadError` and no record. -/
theorem record_delivery_witness :
    ((step 3 ⟨.Continue, .FindStopByte, 0, 0, 2, [5, 6]⟩ 129).1.status = .PayloadError ∧
      (step 3 ⟨.Continue, .FindStopByte, 0, 0, 2, [5, 6]⟩ 129).2 = none) ∧
      ((⟨.Continue, .FindStopByte, 0, 0, 2, [5, 6]⟩ : Session).transfer_state = .FindStopByte ∧
        (129 : Nat) = STOP_BYTE ∧
        ([5, 6] : List Nat).length = 2 ∧ [5, 6] = [5, 6]) :=
  ⟨(record_delivery 3 ⟨.Continue, .FindStopByte, 0, 0, 2, [5, 6]⟩ 129).2.1 rfl rfl (by decide),
    (record_delivery 2 ⟨.Continue, .FindStopByte, 0, 0, 2, [5, 6]⟩ 129).1 [5, 6] rfl⟩

/-- C4 (amended): on a checksum mismatch in the `FindCrc` phase the parser
transitions back to `FindStartByte`, the status is set to `CrcError` and no
record is delivered — but the buffered payload is NOT discarded untouched:
stuffing reversal is applied to it unconditionally, before the comparison,
on both the match and the mismatch path. -/
theorem crc_mismatch_behaviour (COUNT : Nat) (s : Session) (b : Nat)
    (h : s.transfer_state = .FindCrc)
    (hcrc : crc_calculate crcTable9B s.payload (some s.payload_length) ≠ b) :
    (step COUNT s b).1.transfer_state = .FindStartByte ∧
      (step COUNT s b).1.status = .CrcError ∧
      (step COUNT s b).2 = none ∧
      (step COUNT s b).1.payload = decode_data_cobs s.payload s.overhead_byte := by
  simp only [step, h]
  rw [if_neg hcrc]
  simp

/-- C4 counterexample: a mismatching checksum byte in `FindCrc` (stored
payload `[0]`, the stuffed form of `[126]`, declared length 1, received
checksum 1 ≠ 0) yields `CrcError`, `FindStartByte` and no record, but the
session's payload buffer afterwards is the stuffing-reversed `[126]` — not
the untouched stuffed bytes the claim describes. -/
theorem crc_mismatch_counterexample :
    (step 1 ⟨.Continue, .FindCrc, 0, 0, 1, [0]⟩ 1).1.status = .CrcError ∧
      (step 1 ⟨.Continue, .FindCrc, 0, 0, 1, [0]⟩ 1).1.transfer_state = .FindStartByte ∧
      (step 1 ⟨.Continue, .FindCrc, 0, 0, 1, [0]⟩ 1).2 = none ∧
      (step 1 ⟨.Continue, .FindCrc, 0, 0, 1, [0]⟩ 1).1.payload = decode_data_cobs [0] 0 ∧
      decode_data_cobs [0] 0 ≠ [0] := by decide

/-- Witness for the amended C4 theorem at the same concrete mismatch. -/
theorem crc_mismatch_behaviour_witness :
    (step 1 ⟨.Continue, .FindCrc, 0, 0, 1, [0]⟩ 1).1.transfer_state = .FindStartByte ∧
      (step 1 ⟨.Continue, .FindCrc, 0, 0, 1, [0]⟩ 1).1.status = .CrcError ∧
      (step 1 ⟨.Continue, .FindCrc, 0, 0, 1, [0]⟩ 1).2 = none ∧
      (step 1 ⟨.Continue, .FindCrc, 0, 0, 1, [0]⟩ 1).1.payload =
        decode_data_cobs [0] 0 :=
  crc_mismatch_behaviour 1 ⟨.Continue, .FindCrc, 0, 0, 1, [0]⟩ 1 rfl (by decide)

/-- C3 (amended): the parser never assigns `Continue` or `NoData`: a byte
that does not terminate the current frame leaves the status field unchanged
(whatever it was), and an invocation that finds no bytes to process leaves
the whole session unchanged.  `Continue` only ever appears as the
constructor's initial value and `NoData` is never assigned at all. -/
theorem status_not_rewritten (COUNT : Nat) (s : Session) (b : Nat)
    (h : ¬ terminating s b) :
    (step COUNT s b).1.status = s.status ∧
      (availableLoop COUNT [] s).1.status = s.status := by
  refine ⟨?_, rfl⟩
  unfold terminating at h
  push_neg at h
  obtain ⟨h1, h2, h3⟩ := h
  cases hst : s.transfer_state
  case FindStartByte => simp only [step, hst]; split_ifs <;> rfl
  case FindIdByte => simp [step, hst]
  case FindOverheadByte => simp [step, hst]
  case FindPayloadLength =>
    simp only [step, hst]
    rw [if_pos (h1 hst)]
  case FindPayload => simp only [step, hst]; split_ifs <;> rfl
  case FindCrc =>
    simp only [step, hst]
    rw [if_pos (h2 hst)]
  case FindStopByte => exact absurd hst h3

/-- C3 counterexample: after a rejected length byte the parser status is
`PayloadError`; the next start byte moves the parser to `FindIdByte` without
terminating anything, yet the status stays `PayloadError` instead of being
set to `Continue`; and an invocation with no available bytes leaves the
fresh session's status at `Continue` instead of setting `NoData`. -/
theorem status_continue_counterexample :
    ((step 1 (availableLoop 1 [126, 0, 0, 0] initSession).1 126).2 = none ∧
      (step 1 (availableLoop 1 [126, 0, 0, 0] initSession).1 126).1.transfer_state =
        .FindIdByte ∧
      (step 1 (availableLoop 1 [126, 0, 0, 0] initSession).1 126).1.status ≠ .Continue) ∧
    (availableLoop 1 [] initSession).1.status ≠ .NoData := by decide

/-- Witness for the amended C3 theorem on a fresh session and a noise byte. -/
theorem status_not_rewritten_witness :
    (step 1 initSession 0).1.status = initSession.status ∧
      (availableLoop 1 [] initSession).1.status = initSession.status :=
  status_not_rewritten 1 initSession 0 (by decide)

theorem lastSentinelAux_some_spec (data : List Nat) :
    ∀ (k i : Nat), lastSentinelAux data k = some i →
      i < k ∧ data.getD i 0 = START_BYTE ∧
        ∀ j, i < j → j < k → data.getD j 0 ≠ START_BYTE := by
  intro k
  induction k with
  | zero => intro i h; cases h
  | succ k ih =>
    intro i h
    unfold lastSentinelAux at h
    by_cases hk : data.getD k 0 = START_BYTE
    · rw [if_pos hk] at h
      injection h with h
      subst h
      exact ⟨Nat.lt_succ_self _, hk, fun j hj1 hj2 => absurd hj2 (by omega)⟩
    · rw [if_neg hk] at h
      obtain ⟨h1, h2, h3⟩ := ih i h
      refine ⟨by omega, h2, fun j hj1 hj2 => ?_⟩
      rcases Nat.lt_or_ge j k with hlt | hge
      · exact h3 j hj1 hlt
      · have : j = k := by omega
        rw [this]; exact hk

theorem lastSentinelAux_none_spec (data : List Nat) :
    ∀ (k : Nat), lastSentinelAux data k = none →
      ∀ j, j < k → data.getD j 0 ≠ START_BYTE := by
  intro k
  induction k with
  | zero => intro h j hj; omega
  | succ k ih =>
    intro h j hj
    unfold lastSentinelAux at h
    by_cases hk : data.getD k 0 = START_BYTE
    · rw [if_pos hk] at h; cases h
    · rw [if_neg hk] at h
      rcases Nat.lt_or_ge j k with hlt | hge
      · exact ih h j hlt
      · have : j = k := by omega
        rw [this]; exact hk

theorem occsUp_mem (x : List Nat) :
    ∀ (m j p : Nat), p ∈ occsUp x m j ↔
      j ≤ p ∧ p < j + m ∧ x.getD p 0 = START_BYTE := by
  intro m
  induction m with
  | zero =>
    intro j p
    simp [occsUp]
    omega
  | succ m ih =>
    intro j p
    unfold occsUp
    by_cases hj : x.getD j 0 = START_BYTE
    · rw [if_pos hj]
      constructor
      · intro hp
        rcases List.mem_cons.mp hp with rfl | hp2
        · exact ⟨Nat.le_refl _, by omega, hj⟩
        · obtain ⟨h1, h2, h3⟩ := (ih (j + 1) p).mp hp2
          exact ⟨by omega, by omega, h3⟩
      · rintro ⟨h1, h2, h3⟩
        by_cases hpj : p = j
        · rw [hpj]; exact List.mem_cons_self _ _
        · exact List.mem_cons_of_mem _ ((ih (j + 1) p).mpr ⟨by omega, by omega, h3⟩)
    · rw [if_neg hj]
      constructor
      · intro hp
        obtain ⟨h1, h2, h3⟩ := (ih (j + 1) p).mp hp
        exact ⟨by omega, by omega, h3⟩
      · rintro ⟨h1, h2, h3⟩
        refine (ih (j + 1) p).mpr ⟨?_, by omega, h3⟩
        by_cases hpj : p = j
        · rw [hpj] at h3; exact absurd h3 hj
        · omega

theorem occsUp_eq_nil (x : List Nat) :
    ∀ (m j : Nat), (∀ t, j ≤ t → t < j + m → x.getD t 0 ≠ START_BYTE) →
      occsUp x m j = [] := by
  intro m
  induction m with
  | zero => intro j h; rfl
  | succ m ih =>
    intro j h
    unfold occsUp
    rw [if_neg (h j (Nat.le_refl _) (by omega))]
    exact ih (j + 1) (fun t ht1 ht2 => h t (by omega) (by omega))

theorem occsUp_headD_of (x : List Nat) :
    ∀ (m j s d : Nat), j ≤ s → s < j + m → x.getD s 0 = START_BYTE →
      (∀ t, j ≤ t → t < s → x.getD t 0 ≠ START_BYTE) →
      (occsUp x m j).headD d = s := by
  intro m
  induction m with
  | zero => intro j s d h1 h2 h3 h4; omega
  | succ m ih =>
    intro j s d h1 h2 h3 h4
    unfold occsUp
    by_cases hj : x.getD j 0 = START_BYTE
    · rw [if_pos hj]
      have hjs : j = s := by
        rcases Nat.lt_or_ge j s with hlt | hge
        · exact absurd hj (h4 j (Nat.le_refl _) hlt)
        · omega
      rw [hjs]
      rfl
    · rw [if_neg hj]
      have hjs : j ≠ s := fun h => hj (h ▸ h3)
      exact ih (j + 1) s d (by omega) (by omega) h3
        (fun t ht1 ht2 => h4 t (by omega) ht2)

theorem occsUp_snoc (x : List Nat) :
    ∀ (m j : Nat), occsUp x (m + 1) j =
      occsUp x m j ++ (if x.getD (j + m) 0 = START_BYTE then [j + m] else []) := by
  intro m
  induction m with
  | zero =>
    intro j
    by_cases hj : x.getD j 0 = START_BYTE <;>
      simp [occsUp, hj]
  | succ m ih =>
    intro j
    have e : j + (m + 1) = (j + 1) + m := by omega
    rw [e]
    show occsUp x (m + 1 + 1) j = _
    unfold occsUp
    rw [ih (j + 1)]
    by_cases hj : x.getD j 0 = START_BYTE
    · rw [if_pos hj, if_pos hj]
      rfl
    · rw [if_neg hj, if_neg hj]

theorem occsUp_set_of_lt (x : List Nat) (n v : Nat) :
    ∀ (m j : Nat), j + m ≤ n → occsUp (x.set n v) m j = occsUp x m j := by
  intro m
  induction m with
  | zero => intro j h; rfl
  | succ m ih =>
    intro j h
    unfold occsUp
    rw [getD_set_ne x n j v (by omega)]
    by_cases hj : x.getD j 0 = START_BYTE
    · rw [if_pos hj, if_pos hj, ih (j + 1) (by omega)]
    · rw [if_neg hj, if_neg hj, ih (j + 1) (by omega)]

theorem occsUp_length_le (x : List Nat) :
    ∀ (m j : Nat), (occsUp x m j).length ≤ m := by
  intro m
  induction m with
  | zero => intro j; exact Nat.le_refl _
  | succ m ih =>
    intro j
    unfold occsUp
    split_ifs
    · simpa using Nat.succ_le_succ (ih (j + 1))
    · exact Nat.le_trans (ih (j + 1)) (by omega)

theorem encodeLoop_getD_untouched :
    ∀ (k : Nat) (data : List Nat) (ref p : Nat),
      (k ≤ p ∨ data.getD p 0 ≠ START_BYTE) →
      (encodeLoop k data ref).getD p 0 = data.getD p 0 := by
  intro k
  induction k with
  | zero => intro data ref p _; rfl
  | succ k ih =>
    intro data ref p h
    unfold encodeLoop
    by_cases hk : data.getD k 0 = START_BYTE
    · rw [if_pos hk]
      have hpk : p ≠ k := by
        rcases h with h | h
        · omega
        · intro hh; rw [hh] at h; exact h hk
      have h2 : k ≤ p ∨ (data.set k ((ref + 256 - k) % 256)).getD p 0 ≠ START_BYTE := by
        rcases h with h | h
        · exact Or.inl (by omega)
        · right
          rw [getD_set_ne data k p _ (fun hh => hpk hh.symm)]
          exact h
      rw [ih _ k p h2]
      exact getD_set_ne data k p _ (fun hh => hpk hh.symm)
    · rw [if_neg hk]
      apply ih
      rcases h with h | h
      · exact Or.inl (by omega)
      · exact Or.inr h

theorem encodeLoop_getD_occ :
    ∀ (k : Nat) (data : List Nat) (ref i : Nat),
      i < k → data.getD i 0 = START_BYTE → k ≤ data.length →
      (encodeLoop k data ref).getD i 0 =
        ((occsUp data (k - (i + 1)) (i + 1)).headD ref + 256 - i) % 256 := by
  intro k
  induction k with
  | zero => intro data ref i h; omega
  | succ k ih =>
    intro data ref i hik hocc hkL
    unfold encodeLoop
    by_cases hk : data.getD k 0 = START_BYTE
    · rw [if_pos hk]
      by_cases hik2 : i = k
      · subst hik2
        rw [encodeLoop_getD_untouched i _ i i (Or.inl (Nat.le_refl _))]
        rw [getD_set_self data i _ (by omega)]
        have e : i + 1 - (i + 1) = 0 := by omega
        rw [e]
        rfl
      · have hik3 : i < k := by omega
        rw [ih (data.set k ((ref + 256 - k) % 256)) k i hik3
          (by rw [getD_set_ne data k i _ (fun hh => hik2 hh.symm)]; exact hocc)
          (by rw [List.length_set]; omega)]
        have e1 : occsUp (data.set k ((ref + 256 - k) % 256)) (k - (i + 1)) (i + 1) =
            occsUp data (k - (i + 1)) (i + 1) :=
          occsUp_set_of_lt data k _ _ _ (by omega)
        have e2 : k + 1 - (i + 1) = (k - (i + 1)) + 1 := by omega
        rw [e1, e2, occsUp_snoc]
        have e3 : (i + 1) + (k - (i + 1)) = k := by omega
        rw [e3, if_pos hk]
        cases h : occsUp data (k - (i + 1)) (i + 1) with
        | nil => rfl
        | cons q qs => rfl
    · rw [if_neg hk]
      have hik2 : i ≠ k := fun hh => hk (hh ▸ hocc)
      rw [ih data ref i (by omega) hocc (by omega)]
      have e2 : k + 1 - (i + 1) = (k - (i + 1)) + 1 := by omega
      rw [e2, occsUp_snoc]
      have e3 : (i + 1) + (k - (i + 1)) = k := by omega
      rw [e3, if_neg hk, List.append_nil]

theorem occsUp_succ (x : List Nat) (m j : Nat) :
    occsUp x (m + 1) j =
      if x.getD j 0 = START_BYTE then j :: occsUp x m (j + 1)
      else occsUp x m (j + 1) := rfl

theorem WalkSpec_head_lt :
    ∀ (rest : List Nat) (L : Nat) (y : List Nat) (b : Nat),
      WalkSpec L y b rest → b < L := by
  intro rest
  cases rest with
  | nil => intro L y b h; exact h.2.2
  | cons c cs => intro L y b h; exact h.2.2.1

theorem WalkSpec_set_of_lt :
    ∀ (rest : List Nat) (L : Nat) (y : List Nat) (a v b : Nat), a < b →
      WalkSpec L y b rest → WalkSpec L (y.set a v) b rest := by
  intro rest
  induction rest with
  | nil =>
    intro L y a v b hab h
    obtain ⟨h1, h2, h3⟩ := h
    exact ⟨by rw [getD_set_ne y a b v (by omega)]; exact h1, h2, h3⟩
  | cons c cs ih =>
    intro L y a v b hab h
    obtain ⟨h1, h2, h3, h4⟩ := h
    exact ⟨by rw [getD_set_ne y a b v (by omega)]; exact h1, h2, h3,
      ih L y a v c (by omega) h4⟩

theorem walkSpec_build (x y : List Nat) (lastIdx : Nat)
    (hL : x.length ≤ 253)
    (hy : ∀ i, i < x.length → x.getD i 0 = START_BYTE →
      y.getD i 0 = ((occsUp x (x.length - (i + 1)) (i + 1)).headD lastIdx + 256 - i) % 256)
    (hl1 : lastIdx < x.length)
    (hl2 : x.getD lastIdx 0 = START_BYTE)
    (hl3 : ∀ j, lastIdx < j → j < x.length → x.getD j 0 ≠ START_BYTE)
    (hterm : x.length ≤ lastIdx + 126) :
    ∀ (m a s : Nat), a < s → s + m = x.length → a < x.length →
      x.getD a 0 = START_BYTE →
      (∀ t, a < t → t < s → x.getD t 0 ≠ START_BYTE) →
      WalkSpec x.length y a (occsUp x m s) := by
  intro m
  induction m with
  | zero =>
    intro a s h1 h2 h3 h4 h5
    show WalkSpec x.length y a []
    have ha : a = lastIdx := by
      rcases Nat.lt_trichotomy a lastIdx with h | h | h
      · exact absurd hl2 (h5 lastIdx h (by omega))
      · exact h
      · exact absurd h4 (hl3 a h h3)
    refine ⟨?_, by rw [ha]; exact hterm, h3⟩
    rw [hy a h3 h4]
    have e : occsUp x (x.length - (a + 1)) (a + 1) = [] :=
      occsUp_eq_nil x _ _ (fun t ht1 ht2 => h5 t (by omega) (by omega))
    rw [e]
    show (lastIdx + 256 - a) % 256 = 0
    rw [← ha]
    have e2 : a + 256 - a = 256 := by omega
    rw [e2]
  | succ m ih =>
    intro a s h1 h2 h3 h4 h5
    by_cases hs : x.getD s 0 = START_BYTE
    · have e : occsUp x (m + 1) s = s :: occsUp x m (s + 1) := by
        rw [occsUp_succ, if_pos hs]
      rw [e]
      have hsL : s < x.length := by omega
      refine ⟨?_, h1, h3, ?_⟩
      · rw [hy a h3 h4]
        have hhead : (occsUp x (x.length - (a + 1)) (a + 1)).headD lastIdx = s :=
          occsUp_headD_of x _ _ _ _ (by omega) (by omega) hs
            (fun t ht1 ht2 => h5 t (by omega) ht2)
        rw [hhead]
        have e1 : s + 256 - a = (s - a) + 256 := by omega
        rw [e1, Nat.add_mod_right]
        exact Nat.mod_eq_of_lt (by omega)
      · exact ih s (s + 1) (by omega) (by omega) hsL hs
          (fun t ht1 ht2 => absurd ht2 (by omega))
    · have e : occsUp x (m + 1) s = occsUp x m (s + 1) := by
        rw [occsUp_succ, if_neg hs]
      rw [e]
      refine ih a (s + 1) (by omega) (by omega) h3 h4 (fun t ht1 ht2 => ?_)
      rcases Nat.lt_or_ge t s with hlt | hge
      · exact h5 t ht1 hlt
      · have : t = s := by omega
        rw [this]; exact hs

theorem decodeLoop_stall (g : Nat) (y : List Nat) (a : Nat)
    (h1 : y.length ≤ a + 126) (h2 : y.length ≤ 253) :
    decodeLoop g (y.set a START_BYTE) a = y.set a START_BYTE := by
  cases g with
  | zero => rfl
  | succ g =>
    by_cases ha : a < y.length
    · have hmod : (y.set a START_BYTE).length % 256 = y.length := by
        rw [List.length_set]
        exact Nat.mod_eq_of_lt (by omega)
      rw [decodeLoop_succ _ _ _ (by rw [hmod]; exact ha)]
      rw [getD_set_self y a _ ha, List.set_set]
      by_cases hov : 256 ≤ a + START_BYTE
      · rw [if_pos hov]
      · rw [if_neg hov]
        apply decodeLoop_oob
        rw [hmod]
        show y.length ≤ a + START_BYTE
        unfold START_BYTE
        omega
    · apply decodeLoop_oob
      rw [List.length_set]
      have := Nat.mod_le y.length 256
      omega

theorem restoreAll_length :
    ∀ (ds : List Nat) (y : List Nat), (restoreAll y ds).length = y.length := by
  intro ds
  induction ds with
  | nil => intro y; rfl
  | cons d ds ih =>
    intro y
    show (restoreAll (y.set d START_BYTE) ds).length = y.length
    rw [ih, List.length_set]

theorem restoreAll_getD_notMem :
    ∀ (ds : List Nat) (y : List Nat) (p : Nat), p ∉ ds →
      (restoreAll y ds).getD p 0 = y.getD p 0 := by
  intro ds
  induction ds with
  | nil => intro y p _; rfl
  | cons d ds ih =>
    intro y p hp
    have hpd : p ≠ d := fun h => hp (h ▸ List.mem_cons_self d ds)
    have hpds : p ∉ ds := fun h => hp (List.mem_cons_of_mem d h)
    show (restoreAll (y.set d START_BYTE) ds).getD p 0 = y.getD p 0
    rw [ih _ p hpds, getD_set_ne y d p _ (fun h => hpd h.symm)]

theorem restoreAll_getD_mem :
    ∀ (ds : List Nat) (y : List Nat) (p : Nat), p ∈ ds → p < y.length →
      (restoreAll y ds).getD p 0 = START_BYTE := by
  intro ds
  induction ds with
  | nil => intro y p hp; cases hp
  | cons d ds ih =>
    intro y p hp hplt
    show (restoreAll (y.set d START_BYTE) ds).getD p 0 = START_BYTE
    by_cases hpds : p ∈ ds
    · exact ih _ p hpds (by rw [List.length_set]; exact hplt)
    · have hpd : p = d := by
        rcases List.mem_cons.mp hp with h | h
        · exact h
        · exact absurd h hpds
      rw [restoreAll_getD_notMem ds _ p hpds, hpd,
        getD_set_self y d _ (hpd ▸ hplt)]

theorem decode_walk :
    ∀ (os : List Nat) (a : Nat) (y : List Nat) (f : Nat),
      y.length ≤ 253 → WalkSpec y.length y a os → os.length + 1 ≤ f →
      decodeLoop f y a = restoreAll y (a :: os) := by
  intro os
  induction os with
  | nil =>
    intro a y f hL hw hf
    obtain ⟨hv, hterm, haL⟩ := hw
    obtain ⟨f1, rfl⟩ : ∃ f1, f = f1 + 1 := ⟨f - 1, by omega⟩
    rw [decodeLoop_succ _ _ _ (by rw [Nat.mod_eq_of_lt (by omega)]; exact haL)]
    rw [hv]
    rw [if_neg (by omega)]
    show decodeLoop f1 (y.set a START_BYTE) (a + 0) = restoreAll (y.set a START_BYTE) []
    rw [Nat.add_zero]
    exact decodeLoop_stall f1 y a (by omega) hL
  | cons b rest ih =>
    intro a y f hL hw hf
    obtain ⟨hv, hab, haL, hw2⟩ := hw
    obtain ⟨f1, rfl⟩ : ∃ f1, f = f1 + 1 := ⟨f - 1, by omega⟩
    rw [decodeLoop_succ _ _ _ (by rw [Nat.mod_eq_of_lt (by omega)]; exact haL)]
    rw [hv]
    have hbL : b < y.length := WalkSpec_head_lt rest y.length y b hw2
    have hab2 : a + (b - a) = b := by omega
    rw [hab2]
    rw [if_neg (by omega)]
    have hw3 : WalkSpec (y.set a START_BYTE).length (y.set a START_BYTE) b rest := by
      rw [List.length_set]
      exact WalkSpec_set_of_lt rest y.length y a START_BYTE b hab hw2
    show decodeLoop f1 (y.set a START_BYTE) b = restoreAll (y.set a START_BYTE) (b :: rest)
    exact ih b (y.set a START_BYTE) f1 (by rw [List.length_set]; exact hL) hw3
      (by simp only [List.length_cons] at hf; omega)

/-- C1 (amended): for every payload of 1 to 253 bytes, decoding the stuffed
payload with the overhead byte (first sentinel index, or 255 if none)
restores the original payload — PROVIDED the payload's last sentinel
occurrence `i` satisfies `length ≤ i + 126` (in particular for every
sentinel-free payload, and for every payload of at most 126 bytes).  When
the last occurrence sits more than 126 positions before the end, the
decoder's chain walk re-enters the buffer after the terminal zero offset
and corrupts it: see the counterexample. -/
theorem cobs_roundtrip (x : List Nat) (h1 : 1 ≤ x.length) (h2 : x.length ≤ 253)
    (_hbytes : ∀ b ∈ x, b < 256)
    (hlast : x.length ≤ (lastSentinel x).getD 255 + 126) :
    decode_data_cobs (encode_data_cobs x) (overflow_byte_of x) = x := by
  cases hls : lastSentinel x with
  | none =>
    have hno : ∀ j, j < x.length → x.getD j 0 ≠ START_BYTE :=
      lastSentinelAux_none_spec x x.length hls
    have hfs : firstSentinelAux x 0 = none := by
      cases hfs : firstSentinelAux x 0 with
      | none => rfl
      | some j =>
        obtain ⟨_, hjl, hocc, _⟩ := firstSentinelAux_spec x 0 j hfs
        rw [Nat.sub_zero] at hjl hocc
        exact absurd hocc (hno j hjl)
    unfold encode_data_cobs overflow_byte_of
    rw [hls, hfs]
    show decode_data_cobs x 255 = x
    unfold decode_data_cobs
    apply decodeLoop_oob
    have := Nat.mod_le x.length 256
    omega
  | some lastIdx =>
    obtain ⟨hl1, hl2, hl3⟩ := lastSentinelAux_some_spec x x.length lastIdx hls
    have hterm : x.length ≤ lastIdx + 126 := by
      rw [hls] at hlast
      simpa using hlast
    cases hfs : firstSentinelAux x 0 with
    | none => exact absurd hl2 (firstSentinelAux_none_spec x 0 hfs lastIdx hl1)
    | some a0 =>
      obtain ⟨_, ha0l, ha0occ, ha0min⟩ := firstSentinelAux_spec x 0 a0 hfs
      rw [Nat.sub_zero] at ha0l ha0occ
      have ha0min2 : ∀ t, t < a0 → x.getD t 0 ≠ START_BYTE := by
        intro t ht
        exact ha0min t (by omega)
      have henc : encode_data_cobs x = encodeLoop x.length x lastIdx := by
        unfold encode_data_cobs
        rw [hls]
        show encodeLoop (x.length % 256) x (lastIdx % 256) = _
        rw [Nat.mod_eq_of_lt (by omega : x.length < 256),
          Nat.mod_eq_of_lt (by omega : lastIdx < 256)]
      have hov : overflow_byte_of x = a0 := by
        unfold overflow_byte_of
        rw [hfs]
        show a0 % 256 = a0
        exact Nat.mod_eq_of_lt (by omega)
      have hyL : (encodeLoop x.length x lastIdx).length = x.length :=
        encodeLoop_length x.length x lastIdx
      have hyocc : ∀ i, i < x.length → x.getD i 0 = START_BYTE →
          (encodeLoop x.length x lastIdx).getD i 0 =
            ((occsUp x (x.length - (i + 1)) (i + 1)).headD lastIdx + 256 - i) % 256 := by
        intro i hi hocc
        exact encodeLoop_getD_occ x.length x lastIdx i hi hocc (Nat.le_refl _)
      have hws : WalkSpec x.length (encodeLoop x.length x lastIdx) a0
          (occsUp x (x.length - (a0 + 1)) (a0 + 1)) :=
        walkSpec_build x (encodeLoop x.length x lastIdx) lastIdx h2 hyocc hl1 hl2 hl3
          hterm (x.length - (a0 + 1)) a0 (a0 + 1) (by omega) (by omega) ha0l ha0occ
          (fun t ht1 ht2 => absurd ht2 (by omega))
      rw [henc, hov]
      unfold decode_data_cobs
      rw [Nat.mod_eq_of_lt (by omega : a0 < 256)]
      have hfuel : (occsUp x (x.length - (a0 + 1)) (a0 + 1)).length + 1 ≤
          2 * (encodeLoop x.length x lastIdx).length + 1 := by
        have := occsUp_length_le x (x.length - (a0 + 1)) (a0 + 1)
        omega
      rw [decode_walk (occsUp x (x.length - (a0 + 1)) (a0 + 1)) a0
        (encodeLoop x.length x lastIdx) _ (by omega) (by rw [hyL]; exact hws) hfuel]
      have hrl : (restoreAll (encodeLoop x.length x lastIdx)
          (a0 :: occsUp x (x.length - (a0 + 1)) (a0 + 1))).length = x.length := by
        rw [restoreAll_length]
        exact hyL
      apply List.ext_getElem (by rw [hrl])
      intro p hp1 hp2
      have hpL : p < x.length := hp2
      rw [← List.getD_eq_getElem _ 0 hp1, ← List.getD_eq_getElem _ 0 hp2]
      by_cases hmem : p ∈ a0 :: occsUp x (x.length - (a0 + 1)) (a0 + 1)
      · rw [restoreAll_getD_mem _ _ _ hmem (by omega)]
        rcases List.mem_cons.mp hmem with rfl | hpm
        · exact ha0occ.symm
        · exact ((occsUp_mem x _ _ p).mp hpm).2.2.symm
      · rw [restoreAll_getD_notMem _ _ _ hmem]
        apply encodeLoop_getD_untouched
        right
        intro hocc
        apply hmem
        rcases Nat.lt_trichotomy p a0 with hlt | rfl | hgt
        · exact absurd hocc (ha0min2 p hlt)
        · exact List.mem_cons_self _ _
        · exact List.mem_cons_of_mem _
            ((occsUp_mem x _ _ p).mpr ⟨by omega, by omega, hocc⟩)

/-- C1 counterexample: the 127-byte payload `[0x7E, 0, ..., 0]` (sentinel at
index 0, within the claimed 1–253 byte range) does not survive the round
trip: after the terminal zero offset the decoder's walk continues from the
restored sentinel value 0x7E as if it were an offset, lands back inside the
buffer at index 126, and overwrites that byte with the sentinel. -/
theorem cobs_roundtrip_counterexample :
    decode_data_cobs (encode_data_cobs (126 :: List.replicate 126 0))
        (overflow_byte_of (126 :: List.replicate 126 0)) ≠
      126 :: List.replicate 126 0 := by decide

/-- Witness for the amended C1 theorem at the spec §8 scenario payload
`[0x7E, 0x01, 0x02]`. -/
theorem cobs_roundtrip_witness :
    decode_data_cobs (encode_data_cobs [126, 1, 2]) (overflow_byte_of [126, 1, 2]) =
      [126, 1, 2] :=
  cobs_roundtrip [126, 1, 2] (by decide) (by decide) (by decide) (by decide)
